import Mathlib

/- Verification development for the holdem-lab core library (the `holdem_lab`
Python package): card parsing and formatting, the 5/7-card hand evaluator,
canonical starting hands, draw analysis, and the Monte-Carlo equity engine.
The Python sources are embedded shallowly as executable Lean definitions:
machine characters are represented by their codepoints (`Nat`), Python lists
by `List`, dict/set membership by list membership, float arithmetic by exact
rationals (`ℚ`) — except where the rounding of the stored doubles is itself
at issue, where binary64 values are modelled bit-exactly as dyadic
rationals (`F64`) — and a raised exception by an `Option`/`none` result. -/

namespace HoldemLab

/-! ## Definitions: the shallow embedding of the source -/

/-- A playing card, mirroring `cards.Card`: `rank` ranges over 2..14
(14 = Ace) and `suit` over 0..3 (clubs, diamonds, hearts, spades). -/
structure Card where
  rank : Nat
  suit : Nat
deriving DecidableEq, Repr

/-- Embedding of `Card.to_index`: `(rank - 2) * 4 + suit`, a bijection onto 0..51. -/
def Card.to_index (c : Card) : Nat := (c.rank - 2) * 4 + c.suit

/-- Embedding of `Card.from_index`: the inverse of `to_index` on 0..51. -/
def Card.from_index (i : Nat) : Card := ⟨i / 4 + 2, i % 4⟩

/-- Embedding of `FULL_DECK`: the 52-card universe, `Card.from_index` over 0..51. -/
def FULL_DECK : List Card := (List.range 52).map Card.from_index

/-- Embedding of `str.upper` on a single character (codepoint), restricted to ASCII as the
characters fed to it are. -/
def char_upper (c : Nat) : Nat := if 97 ≤ c ∧ c ≤ 122 then c - 32 else c

/-- Embedding of `str.lower` on a single character (codepoint). -/
def char_lower (c : Nat) : Nat := if 65 ≤ c ∧ c ≤ 90 then c + 32 else c

/-- Embedding of `Rank.__str__` as a codepoint: digits for 2..9, then T/J/Q/K/A.
(Only called on valid rank values 2..14, as in the source, where an invalid
value would be unrepresentable in the `Rank` enum.) -/
def rank_to_char (r : Nat) : Nat :=
  if r ≤ 9 then 48 + r
  else if r = 10 then 84
  else if r = 11 then 74
  else if r = 12 then 81
  else if r = 13 then 75
  else 65

/-- Embedding of `Rank.from_char` on a single character: upper-cases, then looks the
character up in the rank map ('2'..'9', 'T', 'J', 'Q', 'K', 'A'). -/
def rank_from_char (c : Nat) : Option Nat :=
  let c := char_upper c
  if 50 ≤ c ∧ c ≤ 57 then some (c - 48)
  else if c = 84 then some 10
  else if c = 74 then some 11
  else if c = 81 then some 12
  else if c = 75 then some 13
  else if c = 65 then some 14
  else none

/-- Embedding of `Suit.__str__` as a codepoint: c, d, h, s. -/
def suit_to_char (s : Nat) : Nat :=
  if s = 0 then 99 else if s = 1 then 100 else if s = 2 then 104 else 115

/-- Embedding of `Suit.from_char`: lower-cases, then looks up c/d/h/s or one of the four
Unicode suit symbols (U+2663, U+2666, U+2665, U+2660). -/
def suit_from_char (c : Nat) : Option Nat :=
  let c := char_lower c
  if c = 99 then some 0
  else if c = 100 then some 1
  else if c = 104 then some 2
  else if c = 115 then some 3
  else if c = 9827 then some 0
  else if c = 9830 then some 1
  else if c = 9829 then some 2
  else if c = 9824 then some 3
  else none

/-- Python `str.isspace` characters appearing in `str.strip`. -/
def is_space (c : Nat) : Bool := c = 32 || c = 9 || c = 10 || c = 13 || c = 11 || c = 12

/-- Embedding of `str.strip`: drop whitespace from both ends. -/
def strip (s : List Nat) : List Nat :=
  ((s.dropWhile is_space).reverse.dropWhile is_space).reverse

/-- Embedding of `Suit.from_char` applied to the remainder substring `s[k:]`: the whole
remainder is looked up in the one-character map, so only a singleton
remainder can match. -/
def suit_from_chars (s : List Nat) : Option Nat :=
  match s with
  | [c] => suit_from_char c
  | _ => none

/-- Embedding of `format_card` (= `Card.__str__`): the two-character form, rank character
followed by suit character, as codepoints. -/
def format_card (c : Card) : List Nat := [rank_to_char c.rank, suit_to_char c.suit]

/-- Embedding of `parse_card` on a codepoint list; `none` models a raised `ValueError`.
Strips whitespace, requires length at least 2, handles a leading "10" as the
rank Ten, otherwise reads the rank from the first character and the suit
from the remainder. -/
def parse_card (s : List Nat) : Option Card :=
  let s := strip s
  if s.length < 2 then none
  else if s.take 2 = [49, 48] then
    (suit_from_chars (s.drop 2)).map fun st => (⟨10, st⟩ : Card)
  else
    match s with
    | c :: rest =>
        (rank_from_char c).bind fun r =>
          (suit_from_chars rest).map fun st => (⟨r, st⟩ : Card)
    | [] => none

/-- Embedding of `canonize.CanonicalHand`: high/low rank values with a suited flag. -/
structure CanonicalHand where
  high_rank : Nat
  low_rank : Nat
  suited : Bool
deriving DecidableEq, Repr

/-- Embedding of `CanonicalHand.is_pair`. -/
def CanonicalHand.is_pair (h : CanonicalHand) : Bool := h.high_rank == h.low_rank

/-- Embedding of `CanonicalHand.num_combos`: 6 for pairs, 4 for suited, 12 for offsuit. -/
def CanonicalHand.num_combos (h : CanonicalHand) : Nat :=
  if h.is_pair then 6 else if h.suited then 4 else 12

/-- Embedding of `reversed(Rank)`: rank values from Ace (14) down to Two (2). -/
def ranks_desc : List Nat := (List.range 13).map (fun i => 14 - i)

/-- Embedding of `get_all_canonical_hands`: the 13 pairs over descending rank, then the
suited hands over descending high and low rank with `high > low`, then the
offsuit hands likewise. -/
def get_all_canonical_hands : List CanonicalHand :=
  (ranks_desc.map fun r => CanonicalHand.mk r r false) ++
  (ranks_desc.flatMap fun hi => ranks_desc.filterMap fun lo =>
    if lo < hi then some (CanonicalHand.mk hi lo true) else none) ++
  (ranks_desc.flatMap fun hi => ranks_desc.filterMap fun lo =>
    if lo < hi then some (CanonicalHand.mk hi lo false) else none)

/-- Embedding of `HandType.HIGH_CARD` -/
def HIGH_CARD : Nat := 0

/-- Embedding of `HandType.ONE_PAIR` -/
def ONE_PAIR : Nat := 1

/-- Embedding of `HandType.TWO_PAIR` -/
def TWO_PAIR : Nat := 2

/-- Embedding of `HandType.THREE_OF_A_KIND` -/
def THREE_OF_A_KIND : Nat := 3

/-- Embedding of `HandType.STRAIGHT` -/
def STRAIGHT : Nat := 4

/-- Embedding of `HandType.FLUSH` -/
def FLUSH : Nat := 5

/-- Embedding of `HandType.FULL_HOUSE` -/
def FULL_HOUSE : Nat := 6

/-- Embedding of `HandType.FOUR_OF_A_KIND` -/
def FOUR_OF_A_KIND : Nat := 7

/-- Embedding of `HandType.STRAIGHT_FLUSH` -/
def STRAIGHT_FLUSH : Nat := 8

/-- Embedding of `HandType.ROYAL_FLUSH` -/
def ROYAL_FLUSH : Nat := 9

/-- Embedding of `evaluator.HandRank`: hand type value with primary ranks and kickers. -/
structure HandRank where
  hand_type : Nat
  primary_ranks : List Nat
  kickers : List Nat
deriving DecidableEq, Repr

/-- Python `sorted(..., reverse=True)` on ints (stable; insertion sort). -/
def sort_desc (l : List Nat) : List Nat := l.insertionSort (· ≥ ·)

/-- Python `sorted(...)` on ints. -/
def sort_asc (l : List Nat) : List Nat := l.insertionSort (· ≤ ·)

/-- Embedding of `_get_ranks`: the rank values, sorted descending. -/
def get_ranks (cards : List Card) : List Nat := sort_desc (cards.map Card.rank)

/-- Embedding of `_is_flush`: all suits equal (`len(set(suits)) == 1`). -/
def is_flush (cards : List Card) : Bool := (cards.map Card.suit).dedup.length == 1

/-- Embedding of `_get_straight_high`: on the five sorted unique ranks, a straight iff the
spread is exactly 4, or the wheel `[14,5,4,3,2]` with high card 5. -/
def straight_high (ranks : List Nat) : Option Nat :=
  let unique := sort_desc ranks.dedup
  if unique.length ≠ 5 then none
  else if unique.headD 0 - unique.getLastD 0 = 4 then some (unique.headD 0)
  else if unique = [14, 5, 4, 3, 2] then some 5
  else none

/-- Embedding of `Counter(ranks)` as (rank, count) pairs over the distinct ranks. -/
def rank_counts (ranks : List Nat) : List (Nat × Nat) :=
  ranks.dedup.map fun r => (r, (ranks.filter (· = r)).length)

/-- Embedding of `counts = sorted(rank_counts.values(), reverse=True)`. -/
def counts (ranks : List Nat) : List Nat := sort_desc ((rank_counts ranks).map Prod.snd)

/-- Embedding of `ranks_by_count = sorted(rank_counts.items(), key=(count, rank),
reverse=True)`: distinct ranks by count descending, ties by rank
descending. -/
def ranks_by_count (ranks : List Nat) : List (Nat × Nat) :=
  (rank_counts ranks).insertionSort fun a b => a.2 > b.2 ∨ (a.2 = b.2 ∧ a.1 ≥ b.1)

/-- The classification body of `evaluate_five`, as a function of the sorted
rank list and the flush flag — the only data the source body reads from the
cards. Indexing into `ranks_by_count` is modelled with `getD`; the defaults
are unreachable whenever `counts` has the matched shape, exactly where the
source indexes. -/
def eval_from (ranks : List Nat) (flush : Bool) : HandRank :=
  let sh := straight_high ranks
  let cnts := counts ranks
  let rbc := ranks_by_count ranks
  let r0 := (rbc.getD 0 (0, 0)).1
  let r1 := (rbc.getD 1 (0, 0)).1
  let r2 := (rbc.getD 2 (0, 0)).1
  let r3 := (rbc.getD 3 (0, 0)).1
  if flush ∧ sh.isSome then
    if sh = some 14 then ⟨ROYAL_FLUSH, [14], []⟩
    else ⟨STRAIGHT_FLUSH, [sh.getD 0], []⟩
  else if cnts = [4, 1] then ⟨FOUR_OF_A_KIND, [r0], [r1]⟩
  else if cnts = [3, 2] then ⟨FULL_HOUSE, [r0, r1], []⟩
  else if flush then ⟨FLUSH, ranks, []⟩
  else if sh.isSome then ⟨STRAIGHT, [sh.getD 0], []⟩
  else if cnts = [3, 1, 1] then ⟨THREE_OF_A_KIND, [r0], sort_desc [r1, r2]⟩
  else if cnts = [2, 2, 1] then ⟨TWO_PAIR, sort_desc [r0, r1], [r2]⟩
  else if cnts = [2, 1, 1, 1] then ⟨ONE_PAIR, [r0], sort_desc [r1, r2, r3]⟩
  else ⟨HIGH_CARD, [ranks.headD 0], ranks.tail⟩

/-- Embedding of `evaluate_five` body applied to the cards. -/
def evaluate_five_core (cards : List Card) : HandRank :=
  eval_from (get_ranks cards) (is_flush cards)

/-- Embedding of `evaluate_five`; `none` models the `ValueError` on a non-5-card input. -/
def evaluate_five (cards : List Card) : Option HandRank :=
  if cards.length = 5 then some (evaluate_five_core cards) else none

/-- Python lexicographic `<` on int tuples (a proper prefix is smaller). -/
def list_lt : List Nat → List Nat → Bool
  | [], [] => false
  | [], _ :: _ => true
  | _ :: _, [] => false
  | a :: as, b :: bs => if a < b then true else if b < a then false else list_lt as bs

/-- The `HandRank` ordering (dataclass `order=True`): lexicographic on
(hand_type, primary_ranks, kickers). -/
def hr_lt (x y : HandRank) : Bool :=
  if x.hand_type < y.hand_type then true
  else if y.hand_type < x.hand_type then false
  else if list_lt x.primary_ranks y.primary_ranks then true
  else if list_lt y.primary_ranks x.primary_ranks then false
  else list_lt x.kickers y.kickers

/-- Embedding of `evaluate_hand`: 5..7 cards; for more than 5, the maximum of
`evaluate_five` over all C(n,5) five-card subsets. `none` models the
`ValueError` branches for fewer than 5 or more than 7 cards. -/
def evaluate_hand (cards : List Card) : Option HandRank :=
  if cards.length < 5 then none
  else if 7 < cards.length then none
  else if cards.length = 5 then evaluate_five cards
  else
    match (cards.sublistsLen 5).map evaluate_five_core with
    | [] => none
    | r :: rs => some (rs.foldl (fun best x => if hr_lt best x then x else best) r)

/-- The royal hand A♥ K♥ Q♥ J♥ T♥ (hearts = suit 2). -/
def royal_hand : List Card := [⟨14, 2⟩, ⟨13, 2⟩, ⟨12, 2⟩, ⟨11, 2⟩, ⟨10, 2⟩]

/-- Embedding of `PlayerHand`: a player's known hole cards. -/
structure PlayerHand where
  hole_cards : List Card
deriving DecidableEq, Repr

/-- Embedding of `ConvergencePoint`: simulation count with the per-player equities. -/
structure ConvergencePoint where
  simulation : Nat
  equities : List ℚ
deriving DecidableEq, Repr

/-- Embedding of `PlayerEquity`: per-player result counters. The source dataclass stores
only these three fields — it has no `equity_sum` field. -/
structure PlayerEquity where
  win_count : Nat
  tie_count : Nat
  total_simulations : Nat
deriving DecidableEq, Repr

/-- Embedding of `PlayerEquity.win_rate`. -/
def PlayerEquity.win_rate (p : PlayerEquity) : ℚ :=
  if p.total_simulations = 0 then 0 else (p.win_count : ℚ) / p.total_simulations

/-- Embedding of `PlayerEquity.tie_rate`. -/
def PlayerEquity.tie_rate (p : PlayerEquity) : ℚ :=
  if p.total_simulations = 0 then 0 else (p.tie_count : ℚ) / p.total_simulations

/-- Embedding of `PlayerEquity.equity`: the reported equity, which the source computes as
`win_rate + tie_rate / 2` (its docstring calls this "a simplified
calculation"). -/
def PlayerEquity.equity (p : PlayerEquity) : ℚ :=
  if p.total_simulations = 0 then 0 else p.win_rate + p.tie_rate / 2

/-- Embedding of `EquityAccumulator`: internal accumulator of the simulation loop.
Python floats are modelled by exact rationals here; `record_equity_f64`
models the same `equity_sum` updates bit-exactly as binary64. -/
structure EquityAccumulator where
  wins : List Nat
  ties : List Nat
  equity_sum : List ℚ
  total : Nat
deriving DecidableEq, Repr

/-- Embedding of `EquityAccumulator()` followed by `init_players(n)`. -/
def EquityAccumulator.init_players (n : Nat) : EquityAccumulator :=
  ⟨List.replicate n 0, List.replicate n 0, List.replicate n 0, 0⟩

/-- The tie branch's loop body in `EquityAccumulator.record`:
`ties[idx] += 1; equity_sum[idx] += share`. -/
def record_tie_step (share : ℚ) (a : EquityAccumulator) (idx : Nat) : EquityAccumulator :=
  { a with ties := a.ties.set idx (a.ties.getD idx 0 + 1),
           equity_sum := a.equity_sum.set idx (a.equity_sum.getD idx 0 + share) }

/-- Embedding of `EquityAccumulator.record` (the `num_players` argument is unused in the
source body too). The element update `l[i] += x` is modelled with
`List.set`/`getD`; every call site passes in-range indices, where Python
list indexing cannot fail either. An empty winner list would divide by zero
in the source; here `1 / 0 = 0` in `ℚ`, and no caller passes one. -/
def EquityAccumulator.record (acc : EquityAccumulator) (winner_indices : List Nat)
    (_num_players : Nat) : EquityAccumulator :=
  let acc1 := { acc with total := acc.total + 1 }
  if winner_indices.length = 1 then
    let w := winner_indices.headD 0
    { acc1 with wins := acc1.wins.set w (acc1.wins.getD w 0 + 1),
                equity_sum := acc1.equity_sum.set w (acc1.equity_sum.getD w 0 + 1) }
  else
    let share : ℚ := 1 / winner_indices.length
    winner_indices.foldl (record_tie_step share) acc1

/-- Bit length of a natural number (the fuel argument, at least the number
of halvings, makes the recursion structural). -/
def bitlen_fuel : Nat → Nat → Nat
  | 0, _ => 0
  | f + 1, n => if n = 0 then 0 else bitlen_fuel f (n / 2) + 1

/-- Bit length: `bitlen 0 = 0`, and `2 ^ (bitlen n - 1) ≤ n < 2 ^ bitlen n`
for positive `n`. -/
def bitlen (n : Nat) : Nat := bitlen_fuel n n

/-- A nonnegative IEEE-754 binary64 value, represented exactly by the
dyadic rational `num / 2 ^ exp`. Every double the source stores in
`equity_sum` is such a value; in the magnitude range arising there (no
overflow, no subnormals) binary64 arithmetic is exact dyadic arithmetic
followed by rounding to a 53-bit significand, nearest, ties to even. -/
abbrev F64 := Nat × Nat

/-- The double `0.0`. -/
def fl_zero : F64 := (0, 0)

/-- The double `1.0`. -/
def fl_one : F64 := (1, 0)

/-- Round the dyadic `n / 2 ^ k` to a 53-bit significand, nearest, ties to
even: the binary64 rounding step in the source's value range. -/
def fl_norm (n k : Nat) : F64 :=
  let b := bitlen n
  if b ≤ 53 then (n, k)
  else
    let sh := b - 53
    let h := 2 ^ sh
    let q := n / h
    let r := n % h
    let s :=
      if 2 * r < h then q
      else if h < 2 * r then q + 1
      else if q % 2 = 0 then q else q + 1
    if sh ≤ k then (s, k - sh) else (s * 2 ^ (sh - k), 0)

/-- Binary64 addition on the stored doubles: exact dyadic sum, then
rounding. -/
def fl_add (a b : F64) : F64 :=
  let k := max a.2 b.2
  fl_norm (a.1 * 2 ^ (k - a.2) + b.1 * 2 ^ (k - b.2)) k

/-- Binary64 `1.0 / m` for a positive integer `m`: the correctly rounded
double nearest `1 / m` (for `2 ^ (b-1) ≤ m < 2 ^ b` the quotient
`2 ^ (52 + b) / m` lies in `[2 ^ 52, 2 ^ 53]`, so rounding its remainder
gives the 53-bit significand). -/
def fl_one_div (m : Nat) : F64 :=
  let t := 52 + bitlen m
  let q := 2 ^ t / m
  let r := 2 ^ t % m
  let s :=
    if 2 * r < m then q
    else if m < 2 * r then q + 1
    else if q % 2 = 0 then q else q + 1
  (s, t)

/-- The `equity_sum` updates of `EquityAccumulator.record`, with the stored
doubles modelled bit-exactly (`F64` with rounding at every `+=` and at the
`share = 1.0 / num_winners` division) instead of the exact rationals used
elsewhere in this file. -/
def record_equity_f64 (es : List F64) (winner_indices : List Nat) : List F64 :=
  if winner_indices.length = 1 then
    let w := winner_indices.headD 0
    es.set w (fl_add (es.getD w fl_zero) fl_one)
  else
    let share := fl_one_div winner_indices.length
    winner_indices.foldl
      (fun es idx => es.set idx (fl_add (es.getD idx fl_zero) share)) es

/-- The exact (unrounded) mathematical sum of a list of stored doubles, as
a dyadic rational. -/
def f64_total : List F64 → F64
  | [] => (0, 0)
  | a :: t =>
    let s := f64_total t
    let k := max a.2 s.2
    (a.1 * 2 ^ (k - a.2) + s.1 * 2 ^ (k - s.2), k)

/-- The dyadic `a` equals the natural number `t` as a rational:
`a.num / 2 ^ a.exp = t`. -/
def f64_eq_nat (a : F64) (t : Nat) : Prop := a.1 = t * 2 ^ a.2

/-- Embedding of `EquityRequest`. A `none` seed stands for Python's `seed=None`. -/
structure EquityRequest where
  players : List PlayerHand
  board : List Card
  num_simulations : Nat
  seed : Option Nat
  track_convergence : Bool
  convergence_interval : Nat
deriving DecidableEq, Repr

/-- The card list `__post_init__` builds: the board followed by every
player's hole cards. -/
def EquityRequest.all_cards (r : EquityRequest) : List Card :=
  r.board ++ r.players.flatMap PlayerHand.hole_cards

/-- Embedding of `EquityRequest.__post_init__`: rejects fewer than 2 players, more than 5
board cards, or a duplicate among board and hole cards (compared via
`len(set(...))`); `false` models the raised `ValueError`. The source checks
no upper bound on the player count. -/
def equity_request_valid (r : EquityRequest) : Bool :=
  !(r.players.length < 2) && !(5 < r.board.length) &&
    (r.all_cards.dedup.length == r.all_cards.length)

/-- Embedding of `ValueError`-free result of `calculate_equity`. -/
structure EquityResult where
  players : List PlayerEquity
  total_simulations : Nat
  convergence : Option (List ConvergencePoint)
deriving DecidableEq, Repr

/-- Deterministic PRNG transition standing in for `random.Random` (CPython's
Mersenne Twister): a 64-bit linear congruential step. The properties proved
below (determinism, accumulator invariants, tie splitting) do not depend on
the particular pseudo-random stream, only on its being a pure function of
the seed. -/
def lcg_next (s : Nat) : Nat := (6364136223846793005 * s + 1442695040888963407) % 2 ^ 64

/-- Embedding of `random.Random(seed)`: a provided seed determines the generator state;
`Random(None)` seeds from operating-system entropy, modelled by the explicit
`entropy` argument (unused whenever a seed is given). -/
def rng_init (seed : Option Nat) (entropy : Nat) : Nat :=
  match seed with
  | some s => s
  | none => entropy

/-- Swap two positions of a list (both in range at every use). -/
def list_swap (l : List Card) (i j : Nat) : List Card :=
  match l[i]?, l[j]? with
  | some a, some b => (l.set i b).set j a
  | _, _ => l

/-- Embedding of `random.Random.shuffle`, Fisher–Yates: for `i` from `len - 1` down to 1,
draw `j ∈ [0, i]` and swap positions `i` and `j`, threading the PRNG
state. -/
def shuffle_go : Nat → List Card → Nat → List Card × Nat
  | s, l, 0 => (l, s)
  | s, l, i + 1 =>
    let s' := lcg_next s
    let j := s' % (i + 2)
    shuffle_go s' (list_swap l (i + 1) j) i

/-- Embedding of `rng.shuffle(deck)`, returning the shuffled deck and new PRNG state. -/
def shuffle (l : List Card) (s : Nat) : List Card × Nat := shuffle_go s l (l.length - 1)

/-- The comprehension `[evaluate_hand(hand) for hand in hands]` inside
`find_winners`, propagating the first evaluation failure. -/
def map_eval : List (List Card) → Option (List HandRank)
  | [] => some []
  | h :: t => (evaluate_hand h).bind fun r => (map_eval t).map (r :: ·)

/-- Embedding of `find_winners`: evaluate every hand, take the maximum rank, return every
index achieving it (`[i for i, rank in enumerate(ranks) if rank == best]`);
`none` models the raise on an empty hand list and any `evaluate_hand`
error. -/
def find_winners (hands : List (List Card)) : Option (List Nat) :=
  if hands.isEmpty then none
  else
    (map_eval hands).map fun ranks =>
      let best := ranks.foldl (fun b r => if hr_lt b r then r else b) (ranks.headD ⟨0, [], []⟩)
      (List.range ranks.length).filter fun i => ranks.getD i ⟨0, [], []⟩ = best

/-- The state threaded through `calculate_equity`'s simulation loop: the
in-place-shuffled remaining deck, the PRNG state, the accumulator, and the
convergence points collected so far. -/
structure SimState where
  deck : List Card
  rng : Nat
  acc : EquityAccumulator
  conv : List ConvergencePoint
deriving DecidableEq, Repr

/-- One trial of `calculate_equity`'s loop (`sim` is the 0-based loop
index): shuffle the remaining deck in place, deal `cards_needed` runout
cards, build each player's hand, find and record the winners, and on a
convergence checkpoint append the `equity_sum / total` vector. A zero
`convergence_interval` with tracking on would raise `ZeroDivisionError` in
the source, hence `none`. -/
def sim_step (req : EquityRequest) (cards_needed : Nat) (st : SimState) (sim : Nat) :
    Option SimState :=
  if req.track_convergence ∧ req.convergence_interval = 0 then none
  else
    let dr := shuffle st.deck st.rng
    let runout := dr.1.take cards_needed
    let full_board := req.board ++ runout
    let player_hands := req.players.map fun p => p.hole_cards ++ full_board
    (find_winners player_hands).map fun winners =>
      let acc := st.acc.record winners req.players.length
      let conv :=
        if req.track_convergence ∧ (sim + 1) % req.convergence_interval = 0 then
          st.conv ++ [⟨sim + 1,
            (List.range req.players.length).map fun i =>
              if acc.total > 0 then acc.equity_sum.getD i 0 / acc.total else 0⟩]
        else st.conv
      ⟨dr.1, dr.2, acc, conv⟩

/-- The simulation loop of `calculate_equity`: build the remaining deck from
`FULL_DECK` minus the known cards, then run `num_simulations` trials. -/
def equity_run (req : EquityRequest) (entropy : Nat) : Option SimState :=
  let rng0 := rng_init req.seed entropy
  let known := req.board ++ req.players.flatMap PlayerHand.hole_cards
  let remaining_deck := FULL_DECK.filter fun c => !(known.contains c)
  let cards_needed := 5 - req.board.length
  (List.range req.num_simulations).foldlM (sim_step req cards_needed)
    ⟨remaining_deck, rng0, EquityAccumulator.init_players req.players.length, []⟩

/-- Embedding of `calculate_equity`: run the simulations and package the result. The
`players` of the result hold only win/tie/total counters; the source's dead
`final_equities` computation divides `equity_sum` by `acc.total`, so a
zero-trial run raises `ZeroDivisionError` (modelled by `none`). -/
def calculate_equity (req : EquityRequest) (entropy : Nat) : Option EquityResult :=
  (equity_run req entropy).bind fun st =>
    if st.acc.total = 0 then none
    else some
      { players := (List.range req.players.length).map fun i =>
          ⟨st.acc.wins.getD i 0, st.acc.ties.getD i 0, st.acc.total⟩,
        total_simulations := st.acc.total,
        convergence := if st.conv.isEmpty then none else some st.conv }

/-- Eleven players holding 22 pairwise distinct cards. -/
def players_11 : List PlayerHand :=
  (List.range 11).map fun i => ⟨[Card.from_index (2 * i), Card.from_index (2 * i + 1)]⟩

/-- An `EquityRequest` with 11 players, an empty board and a seed. -/
def req_11 : EquityRequest := ⟨players_11, [], 1000, some 0, false, 100⟩

/-- A seedless two-player request: A♣ K♦ against 6♥ 6♦ on the board
2♣ 3♣ 4♣ 5♥, one trial, `seed = None`. -/
def req_none : EquityRequest :=
  { players := [⟨[⟨14, 0⟩, ⟨13, 1⟩]⟩, ⟨[⟨6, 2⟩, ⟨6, 1⟩]⟩],
    board := [⟨2, 0⟩, ⟨3, 0⟩, ⟨4, 0⟩, ⟨5, 2⟩], num_simulations := 1, seed := none,
    track_convergence := false, convergence_interval := 100 }

/-- The per-run accumulator invariant: exact equity mass equals the trial
count, and the vector has one slot per player. -/
def acc_inv (n : Nat) (acc : EquityAccumulator) : Prop :=
  acc.equity_sum.sum = (acc.total : ℚ) ∧ acc.equity_sum.length = n

/-- Three players on the board A♥ K♥ Q♥ J♥ T♥ — everyone plays the royal
flush, so every trial is a three-way tie. One seeded trial. -/
def tie3_req : EquityRequest :=
  { players := [⟨[⟨2, 0⟩, ⟨3, 1⟩]⟩, ⟨[⟨2, 1⟩, ⟨3, 2⟩]⟩, ⟨[⟨2, 2⟩, ⟨3, 3⟩]⟩],
    board := royal_hand, num_simulations := 1, seed := some 0,
    track_convergence := false, convergence_interval := 100 }

/-- The remaining deck of `tie3_req`. -/
def deck_t3 : List Card :=
  FULL_DECK.filter fun c =>
    !((tie3_req.board ++ tie3_req.players.flatMap PlayerHand.hole_cards).contains c)

/-- The state after `tie3_req`'s single trial: a three-way tie recorded. -/
def st_tie3 : SimState :=
  ⟨(shuffle deck_t3 0).1, (shuffle deck_t3 0).2,
    (EquityAccumulator.init_players 3).record [0, 1, 2] 3, []⟩

/-- Embedding of `DrawType.FLUSH_DRAW` (IntEnum `auto()` numbering from 1). -/
def FLUSH_DRAW : Nat := 1

/-- Embedding of `DrawType.BACKDOOR_FLUSH` -/
def BACKDOOR_FLUSH : Nat := 2

/-- Embedding of `DrawType.OPEN_ENDED` -/
def OPEN_ENDED : Nat := 3

/-- Embedding of `DrawType.GUTSHOT` -/
def GUTSHOT : Nat := 4

/-- Embedding of `DrawType.DOUBLE_GUTSHOT` -/
def DOUBLE_GUTSHOT : Nat := 5

/-- Embedding of `DrawType.BACKDOOR_STRAIGHT` -/
def BACKDOOR_STRAIGHT : Nat := 6

/-- The four suit values, in `Suit` declaration order. -/
def suits_list : List Nat := [0, 1, 2, 3]

/-- The thirteen rank values 2..14, in `Rank` declaration order. -/
def rank_values : List Nat := (List.range 13).map (· + 2)

/-- Embedding of `draws.FlushDraw` (without its computed property). -/
structure FlushDraw where
  suit : Nat
  cards_held : Nat
  outs : List Card
  is_nut : Bool
deriving DecidableEq, Repr

/-- Embedding of `FlushDraw.draw_type`: a flush draw from 4 held cards, backdoor from
fewer. -/
def FlushDraw.draw_type (f : FlushDraw) : Nat :=
  if 4 ≤ f.cards_held then FLUSH_DRAW else BACKDOOR_FLUSH

/-- Embedding of `draws.StraightDraw`. -/
structure StraightDraw where
  draw_type : Nat
  needed_ranks : List Nat
  outs : List Card
  high_card : Nat
  is_nut : Bool
deriving DecidableEq, Repr

/-- Embedding of `draws.DrawAnalysis`. -/
structure DrawAnalysis where
  hole_cards : List Card
  board : List Card
  has_flush : Bool
  has_straight : Bool
  flush_draws : List FlushDraw
  straight_draws : List StraightDraw
  total_outs : Nat
  all_outs : List Card
deriving DecidableEq, Repr

/-- Python `sorted(outs, key=lambda c: -c.rank.value)`. -/
def sort_cards_rank_desc (l : List Card) : List Card :=
  l.insertionSort fun a b => a.rank ≥ b.rank

/-- The loop body of `_analyze_flush_draws` for one suit bucket: `none` when
the bucket yields no draw (fewer than 3 cards; exactly 3 past the flop; 5 or
more, i.e. a made flush). -/
def flush_draw_for_suit (all_cards hole_cards dead_cards : List Card)
    (board_size s : Nat) : Option FlushDraw :=
  let cards := all_cards.filter fun c => c.suit = s
  let count := cards.length
  if count < 3 then none
  else if count = 3 ∧ board_size > 3 then none
  else if 5 ≤ count then none
  else
    let known := all_cards ++ dead_cards
    let outs := rank_values.filterMap fun r =>
      if (Card.mk r s) ∈ known then none else some (Card.mk r s)
    let ace := Card.mk 14 s
    some ⟨s, count, sort_cards_rank_desc outs,
      decide (ace ∈ hole_cards ∨ (ace ∈ all_cards ∧ ace ∉ hole_cards) ∨ ace ∈ dead_cards)⟩

/-- Embedding of `_analyze_flush_draws`: bucket the known cards by suit (the dict holds
the four suits in declaration order) and collect the per-bucket draws. -/
def analyze_flush_draws (all_cards hole_cards dead_cards : List Card)
    (board_size : Nat) : List FlushDraw :=
  suits_list.filterMap (flush_draw_for_suit all_cards hole_cards dead_cards board_size)

/-- Embedding of `_build_rank_mask`: bits 1..13 for ranks 2..14, bit 0 mirroring the Ace
for wheel detection. -/
def build_rank_mask (cards : List Card) : Nat :=
  let mask := cards.foldl (fun m c => m ||| (1 <<< (c.rank - 1))) 0
  if mask / 2 ^ 13 % 2 = 1 then mask ||| 1 else mask

/-- Embedding of `_count_bits`, the `while n: count += n & 1; n >>= 1` loop; the fuel
argument (at least the bit length) makes the recursion structural. -/
def count_bits_fuel : Nat → Nat → Nat
  | 0, _ => 0
  | fuel + 1, n => if n = 0 then 0 else n % 2 + count_bits_fuel fuel (n / 2)

/-- Embedding of `_count_bits n`, with enough fuel for every iteration of the loop. -/
def count_bits (n : Nat) : Nat := count_bits_fuel n n

/-- Embedding of `_get_straight_outs`: for each needed rank every live card of that rank,
rank-major in suit order; `none` models the `ValueError` that `Rank(r)`
raises on a value outside 2..14. -/
def get_straight_outs : List Nat → List Card → Option (List Card)
  | [], _ => some []
  | r :: rest, known =>
    if 2 ≤ r ∧ r ≤ 14 then
      (get_straight_outs rest known).map fun tail =>
        (suits_list.filterMap fun s =>
          if (Card.mk r s) ∈ known then none else some (Card.mk r s)) ++ tail
    else none

/-- The 5-bit window of the rank mask ending at rank `high` (bits 0..4 for
the wheel window). -/
def window_at (mask high : Nat) : Nat :=
  if high = 5 then mask % 32 else mask / 2 ^ (high - 5) % 32

/-- Embedding of `[i for i in range(5) if not (window & (1 << i))]`. -/
def gap_positions (window : Nat) : List Nat :=
  (List.range 5).filter fun i => window / 2 ^ i % 2 = 0

/-- Embedding of `range(high - 4, high + 1)`. -/
def rank_window (a b : Nat) : List Nat := (List.range (b + 1 - a)).map (· + a)

/-- The 4-card-pattern extraction of `_analyze_straight_draws` for one
window: the sorted held ranks and the single needed rank, or `none` when the
window is not a 4-of-5 pattern with one gap. -/
def pattern_of_window (high window : Nat) : Option (List Nat × Nat) :=
  if count_bits window = 5 then none
  else if count_bits window = 4 then
    match gap_positions window with
    | [g] =>
      if high = 5 then
        let rank_map : List Nat := [14, 2, 3, 4, 5]
        let needed := rank_map.getD g 0
        let held := rank_map.filter (· ≠ needed)
        some (sort_asc held, needed)
      else
        let needed := (high - 4) + g
        let held := (rank_window (high - 4) high).filter (· ≠ needed)
        some (sort_asc held, needed)
    | _ => none
  else none

/-- Insertion into the `four_card_patterns` dict: insertion-ordered keys,
appending to an existing key's list. -/
def add_pattern (m : List (List Nat × List Nat)) (key : List Nat) (v : Nat) :
    List (List Nat × List Nat) :=
  if m.any fun kv => kv.1 = key then
    m.map fun kv => if kv.1 = key then (kv.1, kv.2 ++ [v]) else kv
  else m ++ [(key, [v])]

/-- The window-scanning loop of `_analyze_straight_draws` over
`high ∈ 5..14`. -/
def four_card_patterns (mask : Nat) : List (List Nat × List Nat) :=
  ((List.range 10).map (· + 5)).foldl
    (fun m high =>
      match pattern_of_window high (window_at mask high) with
      | some kn => add_pattern m kn.1 kn.2
      | none => m) []

/-- The classification of one aggregated held-pattern: two distinct needed
ranks make an open-ended draw, one makes a gutshot (the source's draw-type
if-chain assigns `GUTSHOT` in every branch), anything else is skipped. -/
def classify_pattern (known : List Card) (kv : List Nat × List Nat) :
    Option (List StraightDraw) :=
  let held := kv.1
  let needed_list := sort_asc kv.2.dedup
  let is_wheel := 14 ∈ held ∧ 2 ∈ held
  if needed_list.length = 2 then
    (get_straight_outs needed_list known).map fun all_outs =>
      let high_card :=
        if is_wheel then needed_list.foldl max 0
        else if needed_list.foldl max 0 > held.foldl max 0 then held.foldl max 0 + 1
        else held.foldl max 0
      [⟨OPEN_ENDED, needed_list, all_outs, high_card, decide (high_card = 14)⟩]
  else if needed_list.length = 1 then
    let needed := needed_list.headD 0
    let high_card :=
      if is_wheel ∧ needed = 5 then 5
      else
        let asr := sort_asc (held ++ [needed])
        if 14 ∈ asr ∧ 2 ∈ asr then
          if needed ≤ 5 then 5 else asr.foldl max 0
        else asr.foldl max 0
    (get_straight_outs needed_list known).map fun outs =>
      [⟨GUTSHOT, [needed], outs, high_card, decide (high_card = 14)⟩]
  else some []

/-- Embedding of `_detect_double_gutshots`: 6-bit windows with exactly two internal
gaps. -/
def detect_double_gutshots (mask : Nat) (known : List Card) :
    Option (List StraightDraw) :=
  ((List.range 8).map (· + 7)).foldlM
    (fun acc high =>
      let window :=
        if high = 7 then
          let w := mask % 64
          if mask % 2 = 1 then 32 + w % 32 else w
        else mask / 2 ^ (high - 6) % 64
      if count_bits window ≠ 4 then some acc
      else
        let gaps := (List.range 6).filter fun i => window / 2 ^ i % 2 = 0
        if gaps.length ≠ 2 then some acc
        else if 0 ∈ gaps ∨ 5 ∈ gaps then some acc
        else
          let needed := gaps.map (high - 5 + ·)
          if needed.any fun r => r < 2 ∨ 14 < r then some acc
          else
            (get_straight_outs needed known).map fun outs =>
              if outs.isEmpty then acc
              else acc ++ [⟨DOUBLE_GUTSHOT, needed, outs, high, decide (high = 14)⟩])
    []

/-- Embedding of `_detect_backdoor_straights`: 3-bit windows of three consecutive held
ranks. -/
def detect_backdoor_straights (mask : Nat) (known : List Card) :
    Option (List StraightDraw) :=
  ((List.range 11).map (· + 4)).foldlM
    (fun acc high =>
      if high = 4 then
        if count_bits (mask % 8) = 3 then
          (get_straight_outs [4, 5] known).map fun outs =>
            acc ++ [⟨BACKDOOR_STRAIGHT, [4, 5], outs, 5, false⟩]
        else some acc
      else
        if count_bits (mask / 2 ^ (high - 3) % 8) = 3 then
          let needed0 := if high < 14 then [high - 3, high + 1] else [high - 3]
          let needed := needed0.filter fun r => 2 ≤ r ∧ r ≤ 14
          if needed.isEmpty then some acc
          else
            (get_straight_outs needed known).map fun outs =>
              if outs.isEmpty then acc
              else acc ++ [⟨BACKDOOR_STRAIGHT, needed, outs, min (high + 1) 14,
                decide (14 ≤ high + 1)⟩]
        else some acc)
    []

/-- Embedding of `best[key] = draw` when absent or strictly more outs: dict semantics,
insertion-ordered keys, in-place value replacement. -/
def upsert_best (m : List ((Nat × Nat) × StraightDraw)) (key : Nat × Nat)
    (d : StraightDraw) : List ((Nat × Nat) × StraightDraw) :=
  if m.any fun kv => kv.1 = key then
    m.map fun kv =>
      if kv.1 = key ∧ d.outs.length > kv.2.outs.length then (kv.1, d) else kv
  else m ++ [(key, d)]

/-- Same as `upsert_best`, keyed by `needed_ranks`. -/
def upsert_unique (m : List (List Nat × StraightDraw)) (key : List Nat)
    (d : StraightDraw) : List (List Nat × StraightDraw) :=
  if m.any fun kv => kv.1 = key then
    m.map fun kv =>
      if kv.1 = key ∧ d.outs.length > kv.2.outs.length then (kv.1, d) else kv
  else m ++ [(key, d)]

/-- Embedding of `_deduplicate_straight_draws`: best per (high card, type), then unique
per needed-rank set. -/
def deduplicate_straight_draws (draws : List StraightDraw) : List StraightDraw :=
  if draws.isEmpty then draws
  else
    let best := draws.foldl (fun m d => upsert_best m (d.high_card, d.draw_type) d) []
    let unique := (best.map Prod.snd).foldl
      (fun m d => upsert_unique m d.needed_ranks d) []
    unique.map Prod.snd

/-- Embedding of `_analyze_straight_draws`: aggregate the 4-card patterns, classify them,
add double gutshots before the river, backdoor straights on at most a flop
when nothing better was found, then deduplicate. -/
def analyze_straight_draws (all_cards dead_cards : List Card) (board_size : Nat) :
    Option (List StraightDraw) :=
  let mask := build_rank_mask all_cards
  let known := all_cards ++ dead_cards
  ((four_card_patterns mask).foldlM
      (fun acc kv => (classify_pattern known kv).map (acc ++ ·)) []).bind fun sds =>
    (if board_size < 5 then detect_double_gutshots mask known else some []).bind fun dgs =>
      (if board_size ≤ 3 ∧ (sds ++ dgs).isEmpty then detect_backdoor_straights mask known
       else some []).map fun bds =>
        deduplicate_straight_draws ((sds ++ dgs) ++ bds)

/-- Embedding of `_check_made_hands`: `(False, False)` outright when fewer than 5 cards
are known — the evaluator is not invoked; otherwise read the flush/straight
categories off `evaluate_hand`. -/
def check_made_hands (all_cards : List Card) : Option (Bool × Bool) :=
  if all_cards.length < 5 then some (false, false)
  else
    (evaluate_hand all_cards).map fun hr =>
      (decide (hr.hand_type = FLUSH ∨ hr.hand_type = STRAIGHT_FLUSH ∨
          hr.hand_type = ROYAL_FLUSH),
       decide (hr.hand_type = STRAIGHT ∨ hr.hand_type = STRAIGHT_FLUSH ∨
          hr.hand_type = ROYAL_FLUSH))

/-- Embedding of `analyze_draws`: validate the inputs, run the made-hand pre-check, the
flush and straight analyzers (each skipped when the hand is already made),
and aggregate the deduplicated union of outs sorted by rank descending then
suit. `none` models every `ValueError` path. -/
def analyze_draws (hole_cards board dead_cards : List Card) : Option DrawAnalysis :=
  if hole_cards.length ≠ 2 then none
  else if 5 < board.length then none
  else if (hole_cards ++ board ++ dead_cards).dedup.length ≠
      (hole_cards ++ board ++ dead_cards).length then none
  else
    let all_cards := hole_cards ++ board
    let board_size := board.length
    (check_made_hands all_cards).bind fun hf_hs =>
      let flush_draws :=
        if hf_hs.1 then []
        else analyze_flush_draws all_cards hole_cards dead_cards board_size
      (if hf_hs.2 then some []
       else analyze_straight_draws all_cards dead_cards board_size).map
        fun straight_draws =>
          let outs_set := ((flush_draws.flatMap FlushDraw.outs) ++
            (straight_draws.flatMap StraightDraw.outs)).dedup
          ⟨hole_cards, board, hf_hs.1, hf_hs.2, flush_draws, straight_draws,
            outs_set.length,
            outs_set.insertionSort fun a b =>
              a.rank > b.rank ∨ (a.rank = b.rank ∧ a.suit ≤ b.suit)⟩

/-! ## Theorems -/

/-- C10: for every card of the 52-card universe, formatting to the canonical
two-character string and reparsing round-trips to the same card:
`parse_card (format_card c) = c`. -/
theorem parse_format_roundtrip :
    ∀ i : Fin 52, parse_card (format_card (Card.from_index i)) = some (Card.from_index i) := by
  decide

set_option maxRecDepth 4000 in
/-- C6: `get_all_canonical_hands()` returns exactly 169 pairwise-distinct
hands, ordered as the 13 pairs high→low, then the 78 suited hands by
descending high then low rank, then the 78 offsuit hands likewise; combo
counts are 6 per pair, 4 per suited, 12 per offsuit hand, with per-class
census 78 + 312 + 936 = 1326. -/
theorem get_all_canonical_hands_spec :
    get_all_canonical_hands.length = 169 ∧
    get_all_canonical_hands.Nodup ∧
    ((get_all_canonical_hands.take 13).all fun h => h.is_pair) = true ∧
    (get_all_canonical_hands.take 13).length = 13 ∧
    (get_all_canonical_hands.take 13).Pairwise (fun a b => a.high_rank > b.high_rank) ∧
    (((get_all_canonical_hands.drop 13).take 78).all fun h => h.suited && !h.is_pair) = true ∧
    ((get_all_canonical_hands.drop 13).take 78).length = 78 ∧
    ((get_all_canonical_hands.drop 13).take 78).Pairwise
      (fun a b => a.high_rank > b.high_rank ∨ (a.high_rank = b.high_rank ∧ a.low_rank > b.low_rank)) ∧
    ((get_all_canonical_hands.drop 91).all fun h => !h.suited && !h.is_pair) = true ∧
    (get_all_canonical_hands.drop 91).length = 78 ∧
    (get_all_canonical_hands.drop 91).Pairwise
      (fun a b => a.high_rank > b.high_rank ∨ (a.high_rank = b.high_rank ∧ a.low_rank > b.low_rank)) ∧
    ((get_all_canonical_hands.filter fun h => h.is_pair).all fun h => h.num_combos = 6) = true ∧
    ((get_all_canonical_hands.filter fun h => h.suited).all fun h => h.num_combos = 4) = true ∧
    ((get_all_canonical_hands.filter fun h => !h.is_pair && !h.suited).all
      fun h => h.num_combos = 12) = true ∧
    ((get_all_canonical_hands.filter fun h => h.is_pair).map CanonicalHand.num_combos).sum = 78 ∧
    ((get_all_canonical_hands.filter fun h => h.suited).map CanonicalHand.num_combos).sum = 312 ∧
    ((get_all_canonical_hands.filter fun h => !h.is_pair && !h.suited).map
      CanonicalHand.num_combos).sum = 936 ∧
    (get_all_canonical_hands.map CanonicalHand.num_combos).sum = 1326 := by
  decide

/-- C2 counterexample: on the royal hand `evaluate_five` returns the tenth,
separate `ROYAL_FLUSH` category (value 9), not `STRAIGHT_FLUSH` (value 8) as
the claim states. -/
theorem royal_flush_separate_category :
    evaluate_five royal_hand = some ⟨ROYAL_FLUSH, [14], []⟩ ∧
    ROYAL_FLUSH ≠ STRAIGHT_FLUSH ∧ ROYAL_FLUSH = 9 ∧ STRAIGHT_FLUSH = 8 := by
  refine ⟨by decide, by decide, rfl, rfl⟩

/-- C2 (amended): `evaluate_five` returns a category among the ten strengths
`HIGH_CARD = 0` up to `ROYAL_FLUSH = 9`; for the royal hand it returns the
separate `ROYAL_FLUSH` category with `primary_ranks = [14]` and no
kickers. -/
theorem evaluate_five_ten_categories :
    evaluate_five royal_hand = some ⟨ROYAL_FLUSH, [14], []⟩ ∧
    ∀ ranks flush, (eval_from ranks flush).hand_type ≤ ROYAL_FLUSH := by
  refine ⟨by decide, ?_⟩
  intro ranks flush
  unfold eval_from
  dsimp only
  repeat' split
  all_goals
    simp [HIGH_CARD, ONE_PAIR, TWO_PAIR, THREE_OF_A_KIND, STRAIGHT, FLUSH, FULL_HOUSE,
      FOUR_OF_A_KIND, STRAIGHT_FLUSH, ROYAL_FLUSH]

/-- C7: any five non-suited cards whose descending sorted ranks are exactly
the wheel `[14,5,4,3,2]` evaluate to `STRAIGHT` with primary ranks `[5]` and
no kickers; and in general `_get_straight_high` detects a straight exactly
when there are 5 unique ranks that either span exactly 4 or equal the wheel
set. -/
theorem wheel_straight_spec :
    (∀ cards : List Card, get_ranks cards = [14, 5, 4, 3, 2] → is_flush cards = false →
      evaluate_five cards = some ⟨STRAIGHT, [5], []⟩) ∧
    (∀ ranks : List Nat,
      (straight_high ranks).isSome ↔
        ((sort_desc ranks.dedup).length = 5 ∧
          ((sort_desc ranks.dedup).headD 0 - (sort_desc ranks.dedup).getLastD 0 = 4 ∨
            sort_desc ranks.dedup = [14, 5, 4, 3, 2]))) := by
  constructor
  · intro cards h hf
    have hlen : cards.length = 5 := by
      have hl := congrArg List.length h
      simpa [get_ranks, sort_desc, List.length_insertionSort] using hl
    simp only [evaluate_five, evaluate_five_core, hlen, h, hf]
    norm_num
    decide
  · intro ranks
    unfold straight_high
    dsimp only
    constructor
    · intro h
      split at h
      · simp at h
      · rename_i h5
        refine ⟨by omega, ?_⟩
        split at h
        · left; assumption
        · split at h
          · right; assumption
          · simp at h
    · rintro ⟨h5, hcase⟩
      rw [if_neg (by omega)]
      by_cases hspan :
          (sort_desc ranks.dedup).headD 0 - (sort_desc ranks.dedup).getLastD 0 = 4
      · rw [if_pos hspan]; simp
      · rw [if_neg hspan]
        rcases hcase with h | hwheel
        · exact absurd h hspan
        · rw [if_pos hwheel]; simp

/-- C7 witness: the concrete wheel A♣ 2♦ 3♥ 4♠ 5♣ evaluates to the 5-high
straight. -/
theorem wheel_straight_spec_witness :
    evaluate_five [⟨14, 0⟩, ⟨2, 1⟩, ⟨3, 2⟩, ⟨4, 3⟩, ⟨5, 0⟩] = some ⟨STRAIGHT, [5], []⟩ :=
  wheel_straight_spec.1 _ (by decide) (by decide)

/-- The equality `l.dedup.length = l.length` (the source's
`len(set(x)) == len(x)` check) holds exactly for duplicate-free lists. -/
theorem dedup_length_eq_iff (l : List Card) : l.dedup.length = l.length ↔ l.Nodup := by
  constructor
  · intro h
    have hsub : List.Sublist l.dedup l := l.dedup_sublist
    have := hsub.eq_of_length h
    rw [← this]
    exact l.nodup_dedup
  · intro h
    rw [List.dedup_eq_self.mpr h]

/-- C3 counterexample: a request with 11 players — outside the claimed
[2,10] bound — and all-distinct cards is accepted by
`EquityRequest.__post_init__`; the source never checks an upper bound on
the player count. -/
theorem equity_request_eleven_players_accepted :
    equity_request_valid req_11 = true ∧ req_11.players.length = 11 ∧
      ¬(req_11.players.length ≤ 10) := by decide

/-- C3 (amended): `EquityRequest` construction succeeds exactly when there
are at least 2 players (with no upper bound), at most 5 board cards, and no
duplicate among the board and the players' hole cards; validation happens in
the constructor, before any trial is run. -/
theorem equity_request_valid_iff :
    ∀ r : EquityRequest, equity_request_valid r = true ↔
      (2 ≤ r.players.length ∧ r.board.length ≤ 5 ∧ r.all_cards.Nodup) := by
  intro r
  unfold equity_request_valid
  rw [Bool.and_eq_true, Bool.and_eq_true]
  rw [Bool.not_eq_true', decide_eq_false_iff_not, Nat.not_lt]
  rw [Bool.not_eq_true', decide_eq_false_iff_not, Nat.not_lt]
  rw [beq_iff_eq, dedup_length_eq_iff]
  tauto

/-- C3 witness: a minimal two-player request with distinct cards is
accepted. -/
theorem equity_request_valid_iff_witness :
    equity_request_valid ⟨[⟨[⟨14, 0⟩, ⟨13, 0⟩]⟩, ⟨[⟨7, 1⟩, ⟨2, 2⟩]⟩], [], 100, some 0,
      false, 100⟩ = true :=
  (equity_request_valid_iff _).mpr (by decide)

/-- C5 (amended): `calculate_equity` is deterministic whenever the request
specifies a seed: two runs on equal requests return equal results — the same
win counts, tie counts, totals and convergence traces — regardless of the
operating-system entropy that would seed `random.Random(None)`. -/
theorem calculate_equity_deterministic :
    ∀ (r1 r2 : EquityRequest) (e1 e2 : Nat), r1 = r2 → r1.seed.isSome →
      calculate_equity r1 e1 = calculate_equity r2 e2 := by
  intro r1 r2 e1 e2 h hs
  subst h
  rcases hseed : r1.seed with _ | s
  · rw [hseed] at hs; simp at hs
  · unfold calculate_equity equity_run
    rw [hseed]
    exact rfl

/-- C5 witness: determinism applied to a concrete seeded request under two
different entropies. -/
theorem calculate_equity_deterministic_witness :
    calculate_equity ⟨[⟨[⟨14, 0⟩, ⟨13, 0⟩]⟩, ⟨[⟨7, 1⟩, ⟨2, 2⟩]⟩], [], 3, some 7,
        false, 100⟩ 0 =
      calculate_equity ⟨[⟨[⟨14, 0⟩, ⟨13, 0⟩]⟩, ⟨[⟨7, 1⟩, ⟨2, 2⟩]⟩], [], 3, some 7,
        false, 100⟩ 1 :=
  calculate_equity_deterministic _ _ 0 1 rfl (by decide)

set_option maxRecDepth 200000 in
/-- C5 counterexample: with `seed = None` the generator is seeded from
operating-system entropy, so two runs on the very same request can return
different results — here the two entropies yield opposite winners, refuting
the claim for equal requests whose seed field is `None`. -/
theorem calculate_equity_seed_none_not_deterministic :
    calculate_equity req_none 0 ≠ calculate_equity req_none 4 := by
  intro h
  exact absurd (congrArg (Option.map fun r => r.players.map fun p => p.win_count) h)
    (by decide)

theorem getD_set_self (l : List ℚ) (i : Nat) (v : ℚ) (h : i < l.length) :
    (l.set i v).getD i 0 = v := by
  rw [List.getD_eq_getElem?_getD, List.getElem?_set_eq_of_lt v h]
  rfl

theorem getD_set_ne (l : List ℚ) (i j : Nat) (v : ℚ) (h : j ≠ i) :
    (l.set j v).getD i 0 = l.getD i 0 := by
  rw [List.getD_eq_getElem?_getD, List.getElem?_set_ne (by omega), ← List.getD_eq_getElem?_getD]

theorem getD_set_ne_nat (l : List Nat) (i j : Nat) (v : Nat) (h : j ≠ i) :
    (l.set j v).getD i 0 = l.getD i 0 := by
  rw [List.getD_eq_getElem?_getD, List.getElem?_set_ne (by omega), ← List.getD_eq_getElem?_getD]

/-- Summing a list after the in-place update `l[i] += x`. -/
theorem sum_set_add (l : List ℚ) (i : Nat) (x : ℚ) (h : i < l.length) :
    (l.set i (l.getD i 0 + x)).sum = l.sum + x := by
  induction l generalizing i with
  | nil => simp at h
  | cons a t ih =>
    cases i with
    | zero => simp [List.set]; ring
    | succ n =>
      simp only [List.set, List.getD_cons_succ, List.sum_cons]
      rw [ih n (by simpa using h)]
      ring

/-- The tie-branch fold touches only `ties` and `equity_sum`, preserving
lengths. -/
theorem record_tie_fold_shape (share : ℚ) (w : List Nat) (a : EquityAccumulator) :
    (w.foldl (record_tie_step share) a).total = a.total ∧
      (w.foldl (record_tie_step share) a).wins = a.wins ∧
      (w.foldl (record_tie_step share) a).equity_sum.length = a.equity_sum.length := by
  induction w generalizing a with
  | nil => exact ⟨rfl, rfl, rfl⟩
  | cons j t ih =>
    simp only [List.foldl_cons]
    refine ⟨(ih _).1, (ih _).2.1, ?_⟩
    rw [(ih _).2.2]
    simp [record_tie_step]

/-- Each tie-branch step adds `share` to the sum of `equity_sum`; over the
whole winner list the sum grows by `share * |w|`. -/
theorem record_tie_fold_sum (share : ℚ) (w : List Nat) (a : EquityAccumulator)
    (h : ∀ i ∈ w, i < a.equity_sum.length) :
    (w.foldl (record_tie_step share) a).equity_sum.sum =
      a.equity_sum.sum + share * w.length := by
  induction w generalizing a with
  | nil => simp
  | cons j t ih =>
    simp only [List.foldl_cons]
    rw [ih (record_tie_step share a j)
      (by
        intro i hi
        have : (record_tie_step share a j).equity_sum.length = a.equity_sum.length := by
          simp [record_tie_step]
        rw [this]
        exact h i (List.mem_cons_of_mem _ hi))]
    have hj : j < a.equity_sum.length := h j (List.mem_cons_self _ _)
    have : (record_tie_step share a j).equity_sum.sum = a.equity_sum.sum + share := by
      simp only [record_tie_step]
      exact sum_set_add _ _ _ hj
    rw [this, List.length_cons]
    push_cast
    ring

/-- Indices outside the winner list keep their `equity_sum` entry. -/
theorem record_tie_fold_getD_not_mem (share : ℚ) (w : List Nat) (a : EquityAccumulator)
    (i : Nat) (h : i ∉ w) :
    (w.foldl (record_tie_step share) a).equity_sum.getD i 0 = a.equity_sum.getD i 0 := by
  induction w generalizing a with
  | nil => rfl
  | cons j t ih =>
    simp only [List.foldl_cons]
    rw [ih _ (fun hm => h (List.mem_cons_of_mem _ hm))]
    simp only [record_tie_step]
    exact getD_set_ne _ _ _ _ (fun hj => h (hj ▸ List.mem_cons_self _ _))

/-- Each winner index of a duplicate-free winner list gains exactly `share`
in `equity_sum`. -/
theorem record_tie_fold_getD_mem (share : ℚ) (w : List Nat) (a : EquityAccumulator)
    (i : Nat) (hnd : w.Nodup) (hi : i ∈ w) (h : ∀ j ∈ w, j < a.equity_sum.length) :
    (w.foldl (record_tie_step share) a).equity_sum.getD i 0 =
      a.equity_sum.getD i 0 + share := by
  induction w generalizing a with
  | nil => simp at hi
  | cons j t ih =>
    simp only [List.foldl_cons]
    rcases List.mem_cons.mp hi with hij | hit
    · subst hij
      have hnotin : i ∉ t := (List.nodup_cons.mp hnd).1
      rw [record_tie_fold_getD_not_mem _ _ _ _ hnotin]
      simp only [record_tie_step]
      exact getD_set_self _ _ _ (h i (List.mem_cons_self _ _))
    · have hji : j ≠ i := fun hji => (List.nodup_cons.mp hnd).1 (hji ▸ hit)
      rw [ih _ (List.nodup_cons.mp hnd).2 hit
        (by
          intro k hk
          have : (record_tie_step share a j).equity_sum.length = a.equity_sum.length := by
            simp [record_tie_step]
          rw [this]
          exact h k (List.mem_cons_of_mem _ hk))]
      simp only [record_tie_step]
      rw [getD_set_ne _ _ _ _ hji]

/-- Recording a trial always advances the trial counter by one. -/
theorem record_total (acc : EquityAccumulator) (w : List Nat) (n : Nat) :
    (acc.record w n).total = acc.total + 1 := by
  unfold EquityAccumulator.record
  split
  · rfl
  · exact (record_tie_fold_shape _ _ _).1

/-- Recording a trial preserves the width of `equity_sum`. -/
theorem record_equity_sum_length (acc : EquityAccumulator) (w : List Nat) (n : Nat) :
    (acc.record w n).equity_sum.length = acc.equity_sum.length := by
  unfold EquityAccumulator.record
  split
  · simp
  · exact (record_tie_fold_shape _ _ _).2.2

/-- A recorded trial with a nonempty, in-range winner list adds exactly one
unit of equity in total: 1 to a unique winner, or `|w| * (1/|w|)`
distributed over the tied winners. -/
theorem record_sum (acc : EquityAccumulator) (w : List Nat) (n : Nat) (hw : w ≠ [])
    (h : ∀ i ∈ w, i < acc.equity_sum.length) :
    (acc.record w n).equity_sum.sum = acc.equity_sum.sum + 1 := by
  unfold EquityAccumulator.record
  dsimp only
  split
  · rename_i h1
    have hj : w.headD 0 ∈ w := by
      cases w with
      | nil => simp at h1
      | cons a t => simp
    exact sum_set_add _ _ _ (h _ hj)
  · rename_i h1
    rw [record_tie_fold_sum (1 / (w.length : ℚ)) w
      ⟨acc.wins, acc.ties, acc.equity_sum, acc.total + 1⟩ (by exact h)]
    dsimp only
    have hlen : w.length ≠ 0 := fun hz => hw (List.length_eq_zero.mp hz)
    have : (1 : ℚ) / w.length * w.length = 1 := by
      rw [div_mul_cancel₀]
      exact_mod_cast hlen
    rw [this]

/-- Each winner of a duplicate-free winner list gains `1 / |w|` equity in a
recorded trial (a unique winner gains `1 = 1/1`). -/
theorem record_getD (acc : EquityAccumulator) (w : List Nat) (n : Nat) (i : Nat)
    (hnd : w.Nodup) (hi : i ∈ w) (h : ∀ j ∈ w, j < acc.equity_sum.length) :
    (acc.record w n).equity_sum.getD i 0 = acc.equity_sum.getD i 0 + 1 / w.length := by
  unfold EquityAccumulator.record
  dsimp only
  split
  · rename_i h1
    rcases w with _ | ⟨a, t⟩
    · simp at hi
    · have ht : t = [] := by
        cases t with
        | nil => rfl
        | cons b s => simp at h1
      subst ht
      have hia : i = a := by simpa using hi
      subst hia
      simp only [List.headD_cons]
      rw [getD_set_self _ _ _ (h i (by simp))]
      norm_num
  · exact record_tie_fold_getD_mem _ _ _ _ hnd hi h

/-- On success, `map_eval` preserves the hand count. -/
theorem map_eval_length (hands : List (List Card)) (ranks : List HandRank)
    (h : map_eval hands = some ranks) : ranks.length = hands.length := by
  induction hands generalizing ranks with
  | nil =>
    simp only [map_eval, Option.some.injEq] at h
    subst h
    rfl
  | cons a t ih =>
    simp only [map_eval] at h
    rcases Option.bind_eq_some.mp h with ⟨r, _, h2⟩
    rcases Option.map_eq_some'.mp h2 with ⟨rs, hrs, hw⟩
    subst hw
    simp [ih rs hrs]

/-- The running maximum of `find_winners` is the seed or a list element. -/
theorem foldl_best_mem (l : List HandRank) (b : HandRank) :
    l.foldl (fun b r => if hr_lt b r then r else b) b = b ∨
      l.foldl (fun b r => if hr_lt b r then r else b) b ∈ l := by
  induction l generalizing b with
  | nil => left; rfl
  | cons a t ih =>
    simp only [List.foldl_cons]
    rcases ih (if hr_lt b a then a else b) with h | h
    · rw [h]
      by_cases hba : hr_lt b a
      · right; rw [if_pos hba]; exact List.mem_cons_self _ _
      · left; rw [if_neg hba]
    · right; exact List.mem_cons_of_mem _ h

/-- A successful `find_winners` returns a nonempty list of in-range player
indices. -/
theorem find_winners_sound (hands : List (List Card)) (w : List Nat)
    (h : find_winners hands = some w) : w ≠ [] ∧ ∀ i ∈ w, i < hands.length := by
  unfold find_winners at h
  split at h
  · exact absurd h (by simp)
  · rename_i hne
    rcases Option.map_eq_some'.mp h with ⟨ranks, hr, hw⟩
    have hlen := map_eval_length _ _ hr
    have hhne : hands ≠ [] := by simpa [List.isEmpty_iff] using hne
    have hrne : ranks ≠ [] := by
      intro hnil
      subst hnil
      exact hhne (List.length_eq_zero.mp hlen.symm)
    subst hw
    dsimp only
    constructor
    · have hb : ranks.foldl (fun b r => if hr_lt b r then r else b)
          (ranks.headD ⟨0, [], []⟩) ∈ ranks := by
        rcases foldl_best_mem ranks (ranks.headD ⟨0, [], []⟩) with h1 | h1
        · rw [h1]
          cases ranks with
          | nil => exact absurd rfl hrne
          | cons x xs => exact List.mem_cons_self _ _
        · exact h1
      rcases List.getElem_of_mem hb with ⟨k, hk, hkeq⟩
      apply List.ne_nil_of_mem (a := k)
      rw [List.mem_filter]
      refine ⟨List.mem_range.mpr hk, ?_⟩
      simp only [List.getD_eq_getElem?_getD, List.getElem?_eq_getElem hk, hkeq,
        Option.getD_some, decide_eq_true_eq]
    · intro i hi
      have := (List.mem_filter.mp hi).1
      rw [← hlen]
      exact List.mem_range.mp this

/-- One simulation trial preserves the accumulator invariant. -/
theorem sim_step_acc_inv (req : EquityRequest) (cn : Nat) (st : SimState) (si : Nat)
    (st' : SimState) (h : sim_step req cn st si = some st')
    (hI : acc_inv req.players.length st.acc) : acc_inv req.players.length st'.acc := by
  unfold sim_step at h
  split at h
  · exact absurd h (by simp)
  · rcases Option.map_eq_some'.mp h with ⟨winners, hw, hst⟩
    obtain ⟨hne, hbound⟩ := find_winners_sound _ _ hw
    subst hst
    dsimp only
    have hbound' : ∀ i ∈ winners, i < st.acc.equity_sum.length := by
      intro i hi
      rw [hI.2]
      simpa using hbound i hi
    constructor
    · rw [record_sum st.acc winners req.players.length hne hbound', record_total]
      rw [hI.1]
      push_cast
      ring
    · rw [record_equity_sum_length]
      exact hI.2

/-- The invariant survives the whole simulation fold. -/
theorem foldlM_sim_inv (req : EquityRequest) (cn : Nat) (l : List Nat)
    (st0 st : SimState) (h0 : acc_inv req.players.length st0.acc)
    (h : l.foldlM (sim_step req cn) st0 = some st) :
    acc_inv req.players.length st.acc := by
  induction l generalizing st0 with
  | nil =>
    simp only [List.foldlM_nil] at h
    cases h
    exact h0
  | cons a t ih =>
    rw [List.foldlM_cons] at h
    cases hstep : sim_step req cn st0 a with
    | none => rw [hstep] at h; exact absurd h (by simp)
    | some st1 =>
      rw [hstep] at h
      simp only [Option.bind_eq_bind, Option.some_bind] at h
      exact ih st1 (sim_step_acc_inv req cn st0 a st1 hstep h0) h

/-- Any successful equity run ends with `Σ equity_sum = total`. -/
theorem equity_run_acc_sum (req : EquityRequest) (e : Nat) (st : SimState)
    (h : equity_run req e = some st) : st.acc.equity_sum.sum = (st.acc.total : ℚ) := by
  unfold equity_run at h
  refine (foldlM_sim_inv req _ _ _ _ ?_ h).1
  constructor
  · simp [EquityAccumulator.init_players]
  · simp [EquityAccumulator.init_players]

/-- C4 (amended): in exact arithmetic — the `ℚ` model of the stored
doubles — the accumulator's per-player `equity_sum` values sum exactly to
the number of recorded trials after every successful equity computation;
each recorded trial adds exactly 1 in total, giving 1 to a unique winner
and `1/k` to each of `k` tied winners. The identity is exact for the reals
the trials contribute, and holds of the stored binary64 doubles only up to
rounding (see `equity_sum_float_not_exact`). -/
theorem equity_sum_matches_trials :
    (∀ (req : EquityRequest) (e : Nat) (st : SimState), equity_run req e = some st →
      st.acc.equity_sum.sum = (st.acc.total : ℚ)) ∧
    (∀ (acc : EquityAccumulator) (w : List Nat) (n : Nat), w ≠ [] →
      (∀ i ∈ w, i < acc.equity_sum.length) →
      (acc.record w n).equity_sum.sum = acc.equity_sum.sum + 1 ∧
        (acc.record w n).total = acc.total + 1) ∧
    (∀ (acc : EquityAccumulator) (w : List Nat) (n : Nat) (i : Nat), w.Nodup → i ∈ w →
      (∀ j ∈ w, j < acc.equity_sum.length) →
      (acc.record w n).equity_sum.getD i 0 = acc.equity_sum.getD i 0 + 1 / w.length) :=
  ⟨equity_run_acc_sum,
   fun acc w n hw h => ⟨record_sum acc w n hw h, record_total acc w n⟩,
   fun acc w n i hnd hi h => record_getD acc w n i hnd hi h⟩

set_option maxRecDepth 4000 in
/-- C4 counterexample: the source stores `equity_sum` as binary64 doubles,
so the claimed exact identity fails in the real program. After a single
recorded trial — a three-way tie among players 0, 1 and 2 — each slot holds
`fl(1/3) = 6004799503160661 / 2^54`, and the exact sum of the three held
values is `(2^54 - 1) / 2^54 ≠ 1`, one trial having been recorded. -/
theorem equity_sum_float_not_exact :
    fl_one_div 3 = (6004799503160661, 54) ∧
    record_equity_f64 [fl_zero, fl_zero, fl_zero] [0, 1, 2] =
      [(6004799503160661, 54), (6004799503160661, 54), (6004799503160661, 54)] ∧
    f64_total [(6004799503160661, 54), (6004799503160661, 54),
      (6004799503160661, 54)] = (18014398509481983, 54) ∧
    ¬ f64_eq_nat (18014398509481983, 54) 1 := by
  refine ⟨by decide, by decide, by decide, ?_⟩
  unfold f64_eq_nat
  decide


set_option maxRecDepth 400000 in
theorem equity_run_tie3 : equity_run tie3_req 0 = some st_tie3 := by
  rfl

/-- Evaluating the recorded three-way tie: each player's `equity_sum` is
exactly 1/3 after the single trial. -/
theorem record_tie3_eval :
    (EquityAccumulator.init_players 3).record [0, 1, 2] 3 =
      ⟨[0, 0, 0], [1, 1, 1], [1/3, 1/3, 1/3], 1⟩ := by
  unfold EquityAccumulator.record EquityAccumulator.init_players record_tie_step
  norm_num [List.set, List.replicate]

/-- C4 witness: the invariant and both per-trial facts at concrete inputs. -/
theorem equity_sum_matches_trials_witness :
    st_tie3.acc.equity_sum.sum = (st_tie3.acc.total : ℚ) ∧
    (((EquityAccumulator.init_players 3).record [0, 1, 2] 3).equity_sum.sum =
        (EquityAccumulator.init_players 3).equity_sum.sum + 1 ∧
      ((EquityAccumulator.init_players 3).record [0, 1, 2] 3).total =
        (EquityAccumulator.init_players 3).total + 1) ∧
    ((EquityAccumulator.init_players 3).record [0, 1, 2] 3).equity_sum.getD 1 0 =
      (EquityAccumulator.init_players 3).equity_sum.getD 1 0 + 1 / ([0, 1, 2] : List Nat).length :=
  ⟨equity_sum_matches_trials.1 tie3_req 0 st_tie3 equity_run_tie3,
   equity_sum_matches_trials.2.1 (EquityAccumulator.init_players 3) [0, 1, 2] 3
     (by decide) (by decide),
   equity_sum_matches_trials.2.2 (EquityAccumulator.init_players 3) [0, 1, 2] 3 1
     (by decide) (by decide) (by decide)⟩

set_option maxRecDepth 400000 in
/-- C1: on `tie3_req`'s three-way tie the accumulator holds
`equity_sum = [1/3, 1/3, 1/3]` over 1 trial, yet the reported equities —
computed by `PlayerEquity.equity` as `win_rate + tie_rate / 2` — are all
1/2, not `equity_sum / trials = 1/3`: the accumulated shares are dropped on
return. -/
theorem equity_reported_is_not_equity_sum :
    equity_run tie3_req 0 = some st_tie3 ∧
    st_tie3.acc = ⟨[0, 0, 0], [1, 1, 1], [1/3, 1/3, 1/3], 1⟩ ∧
    (calculate_equity tie3_req 0).map (fun r => r.players.map fun p => (p.win_count, p.tie_count, p.total_simulations)) =
      some [(0, 1, 1), (0, 1, 1), (0, 1, 1)] ∧
    (PlayerEquity.mk 0 1 1).equity = 1/2 ∧
    ((1 : ℚ)/3) / 1 ≠ 1/2 := by
  refine ⟨equity_run_tie3, ?_, by decide, ?_, by norm_num⟩
  · show (EquityAccumulator.init_players 3).record [0, 1, 2] 3 = _
    exact record_tie3_eval
  · unfold PlayerEquity.equity PlayerEquity.win_rate PlayerEquity.tie_rate
    norm_num

/-- A flush draw produced for suit `s` carries suit `s`. -/
theorem flush_draw_for_suit_suit (all hole dead : List Card) (bs s : Nat) (f : FlushDraw)
    (h : flush_draw_for_suit all hole dead bs s = some f) : f.suit = s := by
  unfold flush_draw_for_suit at h
  dsimp only at h
  split at h
  · exact absurd h (by simp)
  · split at h
    · exact absurd h (by simp)
    · split at h
      · exact absurd h (by simp)
      · cases h
        rfl

/-- With a 3-card suit bucket, the per-suit analysis yields a draw exactly
below a 4-card board, and that draw holds 3 cards and every live card of the
suit as outs. -/
theorem flush_draw_for_suit_count3 (all hole dead : List Card) (bs s : Nat)
    (h3 : (all.filter fun c => c.suit = s).length = 3) :
    flush_draw_for_suit all hole dead bs s =
      if 3 < bs then none
      else some ⟨s, 3,
        sort_cards_rank_desc (rank_values.filterMap fun r =>
          if (Card.mk r s) ∈ all ++ dead then none else some (Card.mk r s)),
        decide ((Card.mk 14 s) ∈ hole ∨ ((Card.mk 14 s) ∈ all ∧ (Card.mk 14 s) ∉ hole) ∨
          (Card.mk 14 s) ∈ dead)⟩ := by
  unfold flush_draw_for_suit
  dsimp only
  rw [h3]
  norm_num

/-- C8 (amended): in `analyze_draws`'s flush analysis, a suit bucket holding
exactly 3 known cards is reported — as a backdoor flush draw whose out-set
is all live cards of that suit — exactly when the board has at most 3 cards;
on the turn or river (4 or 5 board cards) it is no draw. -/
theorem backdoor_flush_iff :
    ∀ (all_cards hole_cards dead_cards : List Card) (board_size s : Nat),
      s < 4 →
      (all_cards.filter fun c => c.suit = s).length = 3 →
      (((analyze_flush_draws all_cards hole_cards dead_cards board_size).filter
          fun f => f.suit = s) ≠ [] ↔ board_size ≤ 3) ∧
      ∀ f ∈ analyze_flush_draws all_cards hole_cards dead_cards board_size,
        f.suit = s →
          f.cards_held = 3 ∧ f.draw_type = BACKDOOR_FLUSH ∧
          f.outs = sort_cards_rank_desc (rank_values.filterMap fun r =>
            if (Card.mk r s) ∈ all_cards ++ dead_cards then none
            else some (Card.mk r s)) := by
  intro all hole dead bs s hs h3
  unfold analyze_flush_draws
  have hmem : s ∈ suits_list := by
    unfold suits_list
    simp only [List.mem_cons, List.not_mem_nil, or_false]
    omega
  have hkey := flush_draw_for_suit_count3 all hole dead bs s h3
  constructor
  · constructor
    · intro hne
      obtain ⟨f, hf⟩ := List.exists_mem_of_ne_nil _ hne
      have hf2 := List.mem_filter.mp hf
      obtain ⟨s', _, hsome⟩ := List.mem_filterMap.mp hf2.1
      have hsuit : f.suit = s' := flush_draw_for_suit_suit _ _ _ _ _ _ hsome
      have h4 := hf2.2
      rw [decide_eq_true_eq] at h4
      have hss : s' = s := by
        rw [← hsuit]
        exact h4
      subst hss
      rw [hkey] at hsome
      by_contra hbs
      rw [if_pos (by omega)] at hsome
      exact absurd hsome (by simp)
    · intro hbs
      refine List.ne_nil_of_mem (a := ⟨s, 3,
        sort_cards_rank_desc (rank_values.filterMap fun r =>
          if (Card.mk r s) ∈ all ++ dead then none else some (Card.mk r s)),
        decide ((Card.mk 14 s) ∈ hole ∨ ((Card.mk 14 s) ∈ all ∧ (Card.mk 14 s) ∉ hole) ∨
          (Card.mk 14 s) ∈ dead)⟩) ?_
      rw [List.mem_filter]
      constructor
      · exact List.mem_filterMap.mpr ⟨s, hmem, by rw [hkey, if_neg (by omega)]⟩
      · simp
  · intro f hf hfs
    obtain ⟨s', _, hsome⟩ := List.mem_filterMap.mp hf
    have hsuit : f.suit = s' := flush_draw_for_suit_suit _ _ _ _ _ _ hsome
    have hss : s' = s := by
      rw [← hsuit]
      exact hfs
    subst hss
    rw [hkey] at hsome
    split at hsome
    · exact absurd hsome (by simp)
    · injection hsome with hFf
      subst hFf
      refine ⟨rfl, ?_, rfl⟩
      unfold FlushDraw.draw_type
      norm_num [FLUSH_DRAW, BACKDOOR_FLUSH]

/-- C8 witness: hole A♥ K♥ on the flop Q♥ 7♣ 2♦ — the three-heart bucket is
reported. -/
theorem backdoor_flush_iff_witness :
    ((analyze_flush_draws [⟨14, 2⟩, ⟨13, 2⟩, ⟨12, 2⟩, ⟨7, 0⟩, ⟨2, 1⟩]
        [⟨14, 2⟩, ⟨13, 2⟩] [] 3).filter fun f => f.suit = 2) ≠ [] :=
  (backdoor_flush_iff [⟨14, 2⟩, ⟨13, 2⟩, ⟨12, 2⟩, ⟨7, 0⟩, ⟨2, 1⟩] [⟨14, 2⟩, ⟨13, 2⟩] []
    3 2 (by decide) (by decide)).1.mpr (by decide)

set_option maxRecDepth 400000 in
/-- C8 counterexample: with hole A♥ K♥ and the two-card board Q♥ 2♣ the
three-heart bucket is reported as a backdoor flush draw although the board
does not have exactly 3 cards, refuting the claimed "exactly when |board| =
3". -/
theorem backdoor_flush_on_two_card_board :
    (analyze_draws [⟨14, 2⟩, ⟨13, 2⟩] [⟨12, 2⟩, ⟨2, 0⟩] []).map
        (fun a => (a.board.length,
          a.flush_draws.map fun f => (f.suit, f.cards_held, f.draw_type))) =
      some (2, [(2, 3, BACKDOOR_FLUSH)]) ∧ (2 : Nat) ≠ 3 :=
  ⟨by decide, by decide⟩

/-- Embedding of `evaluate_hand` success on any 5- to 7-card input. -/
theorem evaluate_hand_isSome (cards : List Card) (h5 : 5 ≤ cards.length)
    (h7 : cards.length ≤ 7) : (evaluate_hand cards).isSome = true := by
  unfold evaluate_hand
  rw [if_neg (by omega), if_neg (by omega)]
  by_cases h : cards.length = 5
  · rw [if_pos h]
    unfold evaluate_five
    rw [if_pos h]
    rfl
  · rw [if_neg h]
    cases hm : (cards.sublistsLen 5).map evaluate_five_core with
    | nil =>
      exfalso
      have hl := congrArg List.length hm
      rw [List.length_map, List.length_sublistsLen] at hl
      have hpos : 0 < Nat.choose cards.length 5 := Nat.choose_pos (by omega)
      simp at hl
      omega
    | cons r rs => rfl

/-- Embedding of `_get_straight_outs` success whenever every needed rank is a valid
rank 2..14 (`Rank(r)` does not raise). -/
theorem get_straight_outs_isSome (needed : List Nat) (known : List Card)
    (h : ∀ r ∈ needed, 2 ≤ r ∧ r ≤ 14) :
    (get_straight_outs needed known).isSome = true := by
  induction needed with
  | nil => rfl
  | cons r rest ih =>
    unfold get_straight_outs
    rw [if_pos (h r (List.mem_cons_self _ _))]
    rw [Option.isSome_map']
    exact ih fun x hx => h x (List.mem_cons_of_mem _ hx)

/-- Every 5-bit window of the rank mask is below 32. -/
theorem window_at_lt (mask high : Nat) : window_at mask high < 32 := by
  unfold window_at
  split <;> exact Nat.mod_lt _ (by norm_num)

/-- Over all ten window positions and all 32 window values, the needed rank
of a 4-of-5 pattern is a valid rank. -/
theorem pattern_of_window_valid :
    ∀ high ∈ (List.range 10).map (· + 5), ∀ w ∈ List.range 32,
      ((pattern_of_window high w).all fun kn => decide (2 ≤ kn.2 ∧ kn.2 ≤ 14)) = true := by
  decide

/-- Embedding of `add_pattern` preserves validity of all recorded needed ranks. -/
theorem add_pattern_valid (m : List (List Nat × List Nat)) (key : List Nat) (v : Nat)
    (hm : ∀ kv ∈ m, ∀ x ∈ kv.2, 2 ≤ x ∧ x ≤ 14) (hv : 2 ≤ v ∧ v ≤ 14) :
    ∀ kv ∈ add_pattern m key v, ∀ x ∈ kv.2, 2 ≤ x ∧ x ≤ 14 := by
  unfold add_pattern
  split
  · intro kv hkv x hx
    obtain ⟨kv0, hkv0, heq⟩ := List.mem_map.mp hkv
    by_cases hk : kv0.1 = key
    · rw [if_pos hk] at heq
      subst heq
      dsimp only at hx
      rcases List.mem_append.mp hx with h1 | h1
      · exact hm kv0 hkv0 x h1
      · simp only [List.mem_singleton] at h1
        subst h1
        exact hv
    · rw [if_neg hk] at heq
      subst heq
      exact hm kv0 hkv0 x hx
  · intro kv hkv x hx
    rcases List.mem_append.mp hkv with h1 | h1
    · exact hm kv h1 x hx
    · simp only [List.mem_singleton] at h1
      subst h1
      simp only [List.mem_singleton] at hx
      subst hx
      exact hv

/-- Every needed rank aggregated into `four_card_patterns` is valid. -/
theorem four_card_patterns_valid (mask : Nat) :
    ∀ kv ∈ four_card_patterns mask, ∀ v ∈ kv.2, 2 ≤ v ∧ v ≤ 14 := by
  unfold four_card_patterns
  have key : ∀ high ∈ (List.range 10).map (· + 5), ∀ kn,
      pattern_of_window high (window_at mask high) = some kn →
        2 ≤ kn.2 ∧ kn.2 ≤ 14 := by
    intro high hh kn hkn
    have h2 := pattern_of_window_valid high hh (window_at mask high)
      (List.mem_range.mpr (window_at_lt mask high))
    rw [hkn] at h2
    simpa using h2
  suffices hgen : ∀ (L : List Nat),
      (∀ high ∈ L, ∀ kn, pattern_of_window high (window_at mask high) = some kn →
        2 ≤ kn.2 ∧ kn.2 ≤ 14) →
      ∀ (m : List (List Nat × List Nat)), (∀ kv ∈ m, ∀ v ∈ kv.2, 2 ≤ v ∧ v ≤ 14) →
      ∀ kv ∈ L.foldl (fun m high =>
          match pattern_of_window high (window_at mask high) with
          | some kn => add_pattern m kn.1 kn.2
          | none => m) m, ∀ v ∈ kv.2, 2 ≤ v ∧ v ≤ 14 by
    exact hgen _ key [] (by simp)
  intro L
  induction L with
  | nil =>
    intro _ m hm kv hkv
    exact hm kv hkv
  | cons a t ih =>
    intro hval m hm
    simp only [List.foldl_cons]
    cases hp : pattern_of_window a (window_at mask a) with
    | none =>
      simp only [hp]
      exact ih (fun high hh => hval high (List.mem_cons_of_mem _ hh)) m hm
    | some kn =>
      simp only [hp]
      exact ih (fun high hh => hval high (List.mem_cons_of_mem _ hh)) _
        (add_pattern_valid m kn.1 kn.2 hm (hval a (List.mem_cons_self _ _) kn hp))

/-- Classification of an aggregated pattern with valid needed ranks never
fails. -/
theorem classify_pattern_isSome (known : List Card) (kv : List Nat × List Nat)
    (h : ∀ v ∈ kv.2, 2 ≤ v ∧ v ≤ 14) : (classify_pattern known kv).isSome = true := by
  unfold classify_pattern
  dsimp only
  have hvalid : ∀ r ∈ sort_asc kv.2.dedup, 2 ≤ r ∧ r ≤ 14 := by
    intro r hr
    unfold sort_asc at hr
    rw [List.mem_insertionSort] at hr
    exact h r (List.mem_dedup.mp hr)
  split
  · rw [Option.isSome_map']
    exact get_straight_outs_isSome _ known hvalid
  · split
    · rw [Option.isSome_map']
      exact get_straight_outs_isSome _ known hvalid
    · rfl

/-- An `Option`-valued fold whose every step succeeds succeeds. -/
theorem foldlM_isSome {α β : Type} (f : β → α → Option β) (l : List α)
    (h : ∀ b a, a ∈ l → (f b a).isSome = true) :
    ∀ b, (l.foldlM f b).isSome = true := by
  induction l with
  | nil => intro b; rfl
  | cons a t ih =>
    intro b
    rw [List.foldlM_cons]
    rcases Option.isSome_iff_exists.mp (h b a (List.mem_cons_self _ _)) with ⟨b1, hb1⟩
    rw [hb1]
    simp only [Option.bind_eq_bind, Option.some_bind]
    exact ih (fun b x hx => h b x (List.mem_cons_of_mem _ hx)) b1

/-- Double-gutshot detection never fails: the explicit 2..14 filter in the
source guards every `Rank(r)` construction. -/
theorem detect_double_gutshots_isSome (mask : Nat) (known : List Card) :
    (detect_double_gutshots mask known).isSome = true := by
  unfold detect_double_gutshots
  apply foldlM_isSome
  intro acc high _
  dsimp only
  repeat' split
  all_goals
    first
      | rfl
      | (rename_i hany
         rw [Option.isSome_map']
         apply get_straight_outs_isSome
         intro r hr
         by_contra hcon
         apply hany
         rw [List.any_eq_true]
         refine ⟨r, hr, ?_⟩
         simp only [decide_eq_true_eq]
         omega)

/-- Backdoor-straight detection never fails: needed ranks are filtered to
2..14 before `Rank(r)` is constructed. -/
theorem detect_backdoor_straights_isSome (mask : Nat) (known : List Card) :
    (detect_backdoor_straights mask known).isSome = true := by
  unfold detect_backdoor_straights
  apply foldlM_isSome
  intro acc high _
  dsimp only
  repeat' split
  all_goals
    first
      | rfl
      | (rw [Option.isSome_map']
         apply get_straight_outs_isSome
         intro r hr
         have hmem := (List.mem_filter.mp hr).2
         simp only [decide_eq_true_eq] at hmem
         exact hmem)

/-- The whole straight-draw analysis is total. -/
theorem analyze_straight_draws_isSome (all dead : List Card) (bs : Nat) :
    (analyze_straight_draws all dead bs).isSome = true := by
  unfold analyze_straight_draws
  dsimp only
  have h1 : ((four_card_patterns (build_rank_mask all)).foldlM
      (fun acc kv => (classify_pattern (all ++ dead) kv).map (acc ++ ·)) []).isSome = true := by
    apply foldlM_isSome
    intro acc kv hkv
    rw [Option.isSome_map']
    exact classify_pattern_isSome _ kv (four_card_patterns_valid _ kv hkv)
  rcases Option.isSome_iff_exists.mp h1 with ⟨sds, hsds⟩
  rw [hsds]
  simp only [Option.bind_eq_bind, Option.some_bind]
  have h2 : (if bs < 5 then detect_double_gutshots (build_rank_mask all) (all ++ dead)
      else some []).isSome = true := by
    split
    · exact detect_double_gutshots_isSome _ _
    · rfl
  rcases Option.isSome_iff_exists.mp h2 with ⟨dgs, hdgs⟩
  rw [hdgs]
  simp only [Option.some_bind]
  have h3 : (if bs ≤ 3 ∧ (sds ++ dgs).isEmpty = true then
      detect_backdoor_straights (build_rank_mask all) (all ++ dead)
      else some []).isSome = true := by
    split
    · exact detect_backdoor_straights_isSome _ _
    · rfl
  rcases Option.isSome_iff_exists.mp h3 with ⟨bds, hbds⟩
  rw [hbds]
  rfl

/-- The made-hand pre-check with fewer than 5 known cards returns
`(False, False)` without invoking the evaluator. -/
theorem check_made_hands_small (all : List Card) (h : all.length < 5) :
    check_made_hands all = some (false, false) := by
  unfold check_made_hands
  rw [if_pos h]

/-- The made-hand pre-check succeeds on at most 7 known cards. -/
theorem check_made_hands_isSome (all : List Card) (h : all.length ≤ 7) :
    (check_made_hands all).isSome = true := by
  unfold check_made_hands
  split
  · rfl
  · rw [Option.isSome_map']
    exact evaluate_hand_isSome _ (by omega) h

/-- C9: for any 2 hole cards, at most 5 board cards and duplicate-free
inputs, `analyze_draws` returns a `DrawAnalysis` (no raise): with fewer than
5 known cards the pre-check yields `(False, False)` without invoking the
evaluator, so `evaluate_hand`'s too-few-cards error branch is unreachable
from `analyze_draws`. -/
theorem analyze_draws_total :
    ∀ (hole board dead : List Card), hole.length = 2 → board.length ≤ 5 →
      (hole ++ board ++ dead).Nodup →
      (analyze_draws hole board dead).isSome = true ∧
      ((hole ++ board).length < 5 →
        check_made_hands (hole ++ board) = some (false, false)) := by
  intro hole board dead h2 h5 hnd
  refine ⟨?_, fun hlt => check_made_hands_small _ hlt⟩
  unfold analyze_draws
  rw [if_neg (by omega), if_neg (by omega),
    if_neg (not_ne_iff.mpr ((dedup_length_eq_iff _).mpr hnd))]
  dsimp only
  have hcm : (check_made_hands (hole ++ board)).isSome = true := by
    apply check_made_hands_isSome
    rw [List.length_append]
    omega
  rcases Option.isSome_iff_exists.mp hcm with ⟨hf_hs, hhf⟩
  rw [hhf]
  simp only [Option.bind_eq_bind, Option.some_bind]
  have hsd : (if hf_hs.2 = true then some []
      else analyze_straight_draws (hole ++ board) dead board.length).isSome = true := by
    split
    · rfl
    · exact analyze_straight_draws_isSome _ _ _
  rcases Option.isSome_iff_exists.mp hsd with ⟨sds, hsds⟩
  rw [hsds]
  rfl

/-- C9 witness: a flush-draw flop analysis returns a result. -/
theorem analyze_draws_total_witness :
    (analyze_draws [⟨9, 2⟩, ⟨8, 2⟩] [⟨7, 2⟩, ⟨6, 0⟩, ⟨2, 2⟩] []).isSome = true :=
  (analyze_draws_total [⟨9, 2⟩, ⟨8, 2⟩] [⟨7, 2⟩, ⟨6, 0⟩, ⟨2, 2⟩] []
    (by decide) (by decide) (by decide)).1

end HoldemLab
